import Mathlib

/-!
Verification of the k-mer correlation core (Kmer_algorithm.py).

This file shallowly embeds the data model and the algorithms of the `Kmer`
class: the acceptance-rejection resampling loop of `bootstrapping_BCa`, its
jackknife/acceleration step and percentile index computation, the
triangular correlation-matrix construction of `correlations`, the word
counting of `words_overlay`, and the confidence-interval table assembly.
Numbers are modelled with exact rationals; the float NaN marker is
modelled as `none` in `Option ℚ`.
-/

namespace Kmer

/-- The redraw (rejection) condition of the while-loop in `bootstrapping_BCa`
(source lines 346-347).  The loop keeps redrawing while
`(new_size_N <= low_tol_N or new_size_N >= up_tol_N) and
 (new_size_M <= low_tol_M or new_size_M >= up_tol_M)`, where
`low_tol_N = sum(R) - tolerance` and `up_tol_N = sum(R) + tolerance`
(lines 340-343), and similarly for `M`. -/
def rejectDraw (sumN sumM tol n m : ℚ) : Bool :=
(decide (n ≤ sumN - tol) || decide (sumN + tol ≤ n)) &&
(decide (m ≤ sumM - tol) || decide (sumM + tol ≤ m))

/-- A draw is accepted (the while-loop exits) exactly when `rejectDraw` is false. -/
def acceptDraw (sumN sumM tol n m : ℚ) : Bool :=
! rejectDraw sumN sumM tol n m

/-- Whether some draw among the first `t` attempts (with draw `i` producing the
pair of resampled sums `draws i`) is accepted, i.e. whether the while-loop of
`bootstrapping_BCa` has exited within `t` iterations. -/
def acceptedWithinAttempts (sumN sumM tol : ℚ) (draws : ℕ → ℚ × ℚ) (t : ℕ) : Bool :=
(List.range t).any (fun i => acceptDraw sumN sumM tol (draws i).1 (draws i).2)

/-- The acceptance criterion as the spec words it: `sum(R')` and `sum(O')`
must EACH fall within ± tolerance of `sum(R)` and `sum(O)` respectively. -/
def specAcceptBoth (sumN sumM tol n m : ℚ) : Prop :=
|n - sumN| ≤ tol ∧ |m - sumM| ≤ tol

/-- The `jack_theta` list of `bootstrapping_BCa` (source lines 385-390): for
each replicate `j` of the sorted replicate list, the code appends
`sum(l for l in corr_values[k] if l != corr_values[k][j])` and afterwards
divides every entry by `len(jack_theta[k]) - 1` (the replicate count minus
one).  Note the filter is by value, not by position. -/
def jackTheta (rep : List ℚ) : List ℚ :=
rep.map (fun rj => (rep.filter (fun l => decide (l ≠ rj))).sum / ((rep.length : ℚ) - 1))

/-- The average of the jackknife pseudo-values
(`jack_theta_average`, source line 391). -/
def jackAvg (rep : List ℚ) : ℚ :=
(jackTheta rep).sum / ((jackTheta rep).length : ℚ)

/-- The jackknife pseudo-value as the claim words it: the sum of the other
`B - 1` replicates (all replicates except the single one at position `i`),
divided by `B - 1`. -/
def specJackPseudo (rep : List ℚ) (i : ℕ) : ℚ :=
(rep.sum - rep.getD i 0) / ((rep.length : ℚ) - 1)

/-- Mean of a list of pseudo-values (the scalar content of
`jack_theta_average[k]`, source line 391). -/
def jackMean (jack : List ℚ) : ℚ := jack.sum / (jack.length : ℚ)

/-- The sum of deviations `sum(jack_theta_average[k] - l for l in jack_theta[k])`
appearing twice in the acceleration expression (source lines 392-393). -/
def devSum (jack : List ℚ) : ℚ :=
(jack.map (fun l => jackMean jack - l)).sum

/-- The acceleration constant exactly as source lines 392-393 compute it:
`accel = (sum(avg - l for l in jack)**3) / 6 * ((sum(avg - l for l in jack)**2)**(3/2))`,
i.e. `(s^3 / 6) * ((s^2)^(3/2))` with `s = devSum jack`; since
`(s^2)^(3/2) = |s|^3` for a real `s`, this is `(s^3 / 6) * |s|^3`. -/
def accelCode (jack : List ℚ) : ℚ :=
devSum jack ^ 3 / 6 * |devSum jack| ^ 3

/-- Numerator of the acceleration constant as the claim words it:
the sum over pseudo-values of `(mean - pseudo)` cubed. -/
def specAccelNum (jack : List ℚ) : ℚ :=
(jack.map (fun l => (jackMean jack - l) ^ 3)).sum

/-- The inner sum of the claim's denominator: the sum over pseudo-values of
`(mean - pseudo)` squared (the claim's denominator is `6` times this sum
raised to the power `3/2`). -/
def specAccelBase (jack : List ℚ) : ℚ :=
(jack.map (fun l => (jackMean jack - l) ^ 2)).sum

/-- A concrete list of jackknife pseudo-values. -/
def jackExample : List ℚ := [0, 0, 3]

/-- Python's `int()` conversion: truncation toward zero. -/
def pyInt (q : ℚ) : ℤ :=
if 0 ≤ q then ⌊q⌋ else ⌈q⌉

/-- The plain-percentile lower index, source line 409:
`lower_alpha = int(B*(1 - CL))`. -/
def lowerIdxPerc (B : ℕ) (CL : ℚ) : ℤ :=
pyInt ((B : ℚ) * (1 - CL))

/-- The plain-percentile upper index, source lines 410-414:
`upper_alpha = CL*B; if not upper_alpha.is_integer(): upper_alpha =
int(upper_alpha + 1) else: upper_alpha = int(upper_alpha)`. -/
def upperIdxPerc (B : ℕ) (CL : ℚ) : ℤ :=
if (CL * (B : ℚ)).den = 1 then pyInt (CL * (B : ℚ)) else pyInt (CL * (B : ℚ) + 1)

/-- Python list indexing `l[i]`: a negative index `-l.length ≤ i < 0` wraps
around to `l[l.length + i]`, an index out of range raises (modelled `none`). -/
def pyGet (l : List ℚ) (i : ℤ) : Option ℚ :=
if 0 ≤ i then l.get? i.toNat
else if 0 ≤ i + l.length then l.get? (i + l.length).toNat
else none

/-- The lower confidence bound extracted in plain-percentile mode, source
line 417: `corr_values[k][lower_alpha - 1]`. -/
def percCILow (B : ℕ) (CL : ℚ) (sorted : List ℚ) : Option ℚ :=
pyGet sorted (lowerIdxPerc B CL - 1)

/-- The upper confidence bound extracted in plain-percentile mode, source
line 418: `corr_values[k][upper_alpha - 1]`. -/
def percCIUp (B : ℕ) (CL : ℚ) (sorted : List ℚ) : Option ℚ :=
pyGet sorted (upperIdxPerc B CL - 1)

/-- The claim's clamping of a 1-based index into `[1, B]`. -/
def specClampIdx (B : ℕ) (i : ℤ) : ℤ :=
max 1 (min (B : ℤ) i)

/-- A concrete sorted replicate list with ten distinct values. -/
def sortedExample : List ℚ := [0, 1, 2, 3, 4, 5, 6, 7, 8, 9]

/-- The correlation method selector `self.corr`, restricted to the four
documented tokens: Pearson `P`, Spearman `S`, Kendall `T`, `ALL`. -/
inductive CorrSel
| S
| T
| P
| ALL
deriving DecidableEq

/-- NaN-propagating addition of float-like matrix entries
(`none` is the not-a-number marker). -/
def valAdd : Option ℚ → Option ℚ → Option ℚ
| some a, some b => some (a + b)
| _, _ => none

/-- NaN-propagating subtraction of float-like matrix entries. -/
def valSub : Option ℚ → Option ℚ → Option ℚ
| some a, some b => some (a - b)
| _, _ => none

/-- Layer selection when `corr == "ALL"`: `corr = [spearm, tau, pears]`
(source lines 258-263) — layer 0 Spearman, layer 1 Kendall, layer 2 Pearson. -/
def statAt (sp tau pe : ℕ → ℕ → Option ℚ) (m : Fin 3) : ℕ → ℕ → Option ℚ :=
if m = 0 then sp else if m = 1 then tau else pe

/-- The statistic a single-method selector computes (source lines 248-256). -/
def statOfSel (sp tau pe : ℕ → ℕ → Option ℚ) : CorrSel → (ℕ → ℕ → Option ℚ)
| CorrSel.S => sp
| CorrSel.T => tau
| CorrSel.P => pe
| CorrSel.ALL => sp

/-- What the double loop of `correlations` wrote to a lower-triangle position
of layer `m`: for a single-method selector the value goes to layer
`len(self.corr) - 1 = 0` and the other layers keep their `np.zeros` initial
value; for `ALL` each layer holds its own statistic. -/
def writtenLayer (sel : CorrSel) (sp tau pe : ℕ → ℕ → Option ℚ) (m : Fin 3) :
    ℕ → ℕ → Option ℚ :=
match sel with
| CorrSel.ALL => statAt sp tau pe m
| s => if m = 0 then statOfSel sp tau pe s else fun _ _ => some 0

/-- Layer `m` after the double loop of `correlations` (source lines 241-265):
the inner loop breaks as soon as `x < y`, so exactly the positions with
`x ≥ y` are evaluated directly; the rest keep the `np.zeros` initial 0. -/
def preLayer (sel : CorrSel) (sp tau pe : ℕ → ℕ → Option ℚ) (m : Fin 3)
    (x y : ℕ) : Option ℚ :=
if y ≤ x then writtenLayer sel sp tau pe m x y else some 0

/-- How many layers the symmetrisation loop mirrors (source lines 267-271):
all three for `ALL`, otherwise only layer 0. -/
def numMirrored : CorrSel → ℕ
| CorrSel.ALL => 3
| _ => 1

/-- `M + M.T - np.diag(M.diagonal())` applied to one layer
(source lines 272-273). -/
def mirrorFill (L : ℕ → ℕ → Option ℚ) (i j : ℕ) : Option ℚ :=
valSub (valAdd (L i j) (L j i)) (if i = j then L i i else some 0)

/-- Layer `m` of `self.corr_matrix` after `correlations` returns. -/
def corrMatrixFinal (sel : CorrSel) (sp tau pe : ℕ → ℕ → Option ℚ) (m : Fin 3)
    (i j : ℕ) : Option ℚ :=
if (m : ℕ) < numMirrored sel then mirrorFill (preLayer sel sp tau pe m) i j
else preLayer sel sp tau pe m i j

/-- Zero-variance test: a frequency vector is degenerate when all its entries
are equal. -/
def constantVec (v : List ℚ) : Bool :=
match v with
| [] => true
| a :: t => t.all (fun b => decide (b = a))

/-- Modelled from the spec: the scipy.stats correlation statistics
(`spearmanr`, `kendalltau`, `pearsonr` — external library code, not part of
src/) record an explicitly undefined, not-a-number value instead of raising
a fatal error when an input vector has zero variance, and produce a real
value otherwise; `f` abstracts the defined value of the statistic. -/
def scipyStat (f : List ℚ → List ℚ → ℚ) (xv yv : List ℚ) : Option ℚ :=
if constantVec xv || constantVec yv then none else some (f xv yv)

/-- The correlation matrix computed by `correlations` on the frequency
vectors `kf 0, kf 1, ...`, with each scipy statistic modelled by
`scipyStat`. -/
def corrMatrixOnVecs (sel : CorrSel) (fS fT fP : List ℚ → List ℚ → ℚ)
    (kf : ℕ → List ℚ) (m : Fin 3) (i j : ℕ) : Option ℚ :=
corrMatrixFinal sel (fun x y => scipyStat fS (kf x) (kf y))
  (fun x y => scipyStat fT (kf x) (kf y))
  (fun x y => scipyStat fP (kf x) (kf y)) m i j

/-- Layer-indexed defined value of a statistic on a pair of vectors. -/
def statQ (fS fT fP : List ℚ → List ℚ → ℚ) (m : Fin 3) :
    List ℚ → List ℚ → ℚ :=
if m = 0 then fS else if m = 1 then fT else fP

/-- Example frequency vectors: sequence 0 has a constant (zero-variance)
vector, sequences 1 and 2 do not. -/
def kfExample : ℕ → List ℚ :=
fun n => if n = 0 then [1, 1, 1] else [0, 1, 2]

/-- The genetic alphabet `self.alphabet = "ATCG"` as a character list. -/
def alphabetL : List Char := ['A', 'T', 'C', 'G']

/-- `self.all_w` (source lines 208-210): all words of length `k` over the
alphabet, ordered as `itertools.product(self.alphabet, repeat=k)` joins its
tuples — the first symbol varies slowest. -/
def allW : ℕ → List (List Char)
| 0 => [[]]
| k + 1 => alphabetL.flatMap (fun a => (allW k).map (fun w => a :: w))

/-- Window validity (source line 223): `all(w in self.alphabet for w in sub)`. -/
def validW (w : List Char) : Bool :=
w.all (fun c => decide (c ∈ alphabetL))

/-- The number of sliding windows: `end_pos = len(sequence) - k + 1`
iterations of `for pos in range(0, end_pos)` (source lines 219-221); none
when `k` exceeds the sequence length, since the Python range is then empty. -/
def numWindows (s : List Char) (k : ℕ) : ℕ :=
if k ≤ s.length then s.length - k + 1 else 0

/-- The sliding window `sequence[pos:k+pos]` (source line 222). -/
def windowAt (s : List Char) (k pos : ℕ) : List Char :=
(s.drop pos).take k

/-- The retained k-mer list `kmers` (source lines 220-226): the sliding
windows whose characters all belong to the alphabet, in sequence order. -/
def keptKmers (s : List Char) (k : ℕ) : List (List Char) :=
((List.range (numWindows s k)).map (windowAt s k)).filter validW

/-- `self.ordered_kmers[index]` (source lines 227-229): for each word of
`all_w` in order, its occurrence count among the retained windows
(`collections.Counter` returns 0 for missing words). -/
def freqVec (s : List Char) (k : ℕ) : List ℕ :=
(allW k).map (fun w => (keptKmers s k).count w)

/-- The example sequence "ATATAT". -/
def atatat : List Char := ['A', 'T', 'A', 'T', 'A', 'T']

/-- `range(1, len(self.seqs))` (source line 330): the indices of the
sequences paired with the reference at index 0. -/
def pairsIdx (N : ℕ) : List ℕ := List.range' 1 (N - 1)

/-- Component projection of a per-pair result triple
(lower bound, upper bound, point estimate). -/
def proj3 (r : ℕ) (t : ℚ × ℚ × ℚ) : ℚ :=
if r = 0 then t.1 else if r = 1 then t.2.1 else t.2.2

/-- The per-pair (low, up, estimate) triple a single-method selector appends
to slot 0 (`corr_values[0]`, `theta_low[0]`, ... — source lines 361-366,
404-406, 417-419): always the SELECTED method's results. -/
def resOfSel (resS resT resP : ℕ → ℚ × ℚ × ℚ) : CorrSel → (ℕ → ℚ × ℚ × ℚ)
| CorrSel.S => resS
| CorrSel.T => resT
| CorrSel.P => resP
| CorrSel.ALL => resS

/-- Slot-indexed per-pair results when all methods run
(slot 0 Spearman, 1 Kendall, 2 Pearson — source lines 367-370). -/
def resAt3 (resS resT resP : ℕ → ℚ × ℚ × ℚ) (k : ℕ) : ℕ → ℚ × ℚ × ℚ :=
if k = 0 then resS else if k = 1 then resT else resP

/-- Column `c` (0 ≤ c < 9) of the `Conf_int.txt` data, as assembled from
`theta_low[k], theta_up[k], corr_func[k]` (source lines 317, 327-328,
423-427): column `c` shows slot `c / 3`, component `c % 3`.  With a
single-method selector only slot 0 is computed (`stop = 1`) while slots 1
and 2 were pre-filled with `[mt.nan]*(len(self.seqs) - 1)` (lines 327-328;
NaN is modelled as `none`). -/
def columnOf (sel : CorrSel) (resS resT resP : ℕ → ℚ × ℚ × ℚ) (N c : ℕ) :
    List (Option ℚ) :=
if sel = CorrSel.ALL then
  (pairsIdx N).map (fun y => some (proj3 (c % 3) (resAt3 resS resT resP (c / 3) y)))
else if c / 3 = 0 then
  (pairsIdx N).map (fun y => some (proj3 (c % 3) (resOfSel resS resT resP sel y)))
else List.replicate (N - 1) none

/-- Row `i` of the saved table (`data = np.array([...]); data = data.T`,
source lines 424-427). -/
def confRow (sel : CorrSel) (resS resT resP : ℕ → ℚ × ℚ × ℚ) (N i : ℕ) :
    List (Option ℚ) :=
(List.range 9).map (fun c => (columnOf sel resS resT resP N c).getD i none)

/-- The whole `Conf_int.txt` table: one row per (reference, other) pair. -/
def confTable (sel : CorrSel) (resS resT resP : ℕ → ℚ × ℚ × ℚ) (N : ℕ) :
    List (List (Option ℚ)) :=
(List.range (N - 1)).map (confRow sel resS resT resP N)

/-- The fixed column header of `Conf_int.txt` (source lines 428-429). -/
def confHeader : List String :=
["SpearCIlow", "SpearCIup", "Spear", "KenCIlow", "KenCIup", "Ken",
 "PearCIL", "PearCIup", "Pear"]

/-- The point-estimate list `corr_func[k]` built by the pair loops of
`bootstrapping_BCa` (source lines 329-330 with 406/419): `for x in
range(0, 1)`, `for y in range(1, len(self.seqs))`, appending
`self.corr_matrix[k][x][y]` once per pair. -/
def corrFuncList (M : ℕ → ℕ → Option ℚ) (N : ℕ) : List (Option ℚ) :=
((List.range 1).map (fun x => (pairsIdx N).map (fun y => M x y))).flatten

end Kmer

namespace Kmer

theorem sum_map_const_sub (c : ℚ) (l : List ℚ) :
(l.map (fun x => c - x)).sum = (l.length : ℚ) * c - l.sum := by
induction l with
| nil => simp
| cons a t ih =>
  simp only [List.map_cons, List.sum_cons, ih, List.length_cons]
  push_cast
  ring

theorem devSum_eq_zero (jack : List ℚ) : devSum jack = 0 := by
rcases jack with _ | ⟨a, t⟩
· simp [devSum]
· rw [devSum, sum_map_const_sub, jackMean]
  have hlen : (((a :: t).length : ℚ)) ≠ 0 := by
    simp only [List.length_cons]
    push_cast
    positivity
  rw [mul_div_cancel₀ _ hlen]
  ring

theorem count_filter_ne_sum (a : ℚ) (l : List ℚ) (h : l.count a = 1) :
(l.filter (fun x => decide (x ≠ a))).sum = l.sum - a := by
induction l with
| nil => simp at h
| cons b t ih =>
  by_cases hba : b = a
  · subst hba
    rw [List.count_cons_self] at h
    have ht : t.count b = 0 := by omega
    have hnot : b ∉ t := by
      rwa [← List.count_eq_zero]
    have hft : t.filter (fun x => decide (x ≠ b)) = t := by
      apply List.filter_eq_self.mpr
      intro x hx
      simp only [decide_eq_true_eq]
      intro hxa
      exact hnot (hxa ▸ hx)
    rw [List.filter_cons]
    rw [if_neg (by simp)]
    rw [hft, List.sum_cons]
    ring
  · have hcnt : t.count a = 1 := by
      rwa [List.count_cons_of_ne (fun hh => hba hh.symm)] at h
    have hrec := ih hcnt
    rw [List.filter_cons]
    rw [if_pos (by simp [hba])]
    simp only [List.sum_cons]
    rw [hrec]
    ring

theorem ceil_eq_floor_add_one_of_den_ne_one (q : ℚ) (h : q.den ≠ 1) : ⌈q⌉ = ⌊q⌋ + 1 := by
have h1 : ⌊q⌋ ≤ ⌈q⌉ := Int.floor_le_ceil q
have h2 : ⌈q⌉ ≤ ⌊q⌋ + 1 := Int.ceil_le_floor_add_one q
have h3 : ⌊q⌋ ≠ ⌈q⌉ := by
  intro heq
  apply h
  have hle : q ≤ ((⌊q⌋ : ℚ)) := by
    calc q ≤ ((⌈q⌉ : ℚ)) := Int.le_ceil q
    _ = ((⌊q⌋ : ℚ)) := by rw [heq]
  have hq : q = ((⌊q⌋ : ℚ)) := le_antisymm hle (Int.floor_le q)
  rw [hq]
  exact Rat.den_intCast _
omega

/-- C1: with tolerance 0 every draw is rejected (the loop condition is a
tautology), so the acceptance-rejection loop of `bootstrapping_BCa` never
exits, for any number of attempts and any sequence of draws: the code has no
maximum-attempt bound and never reports an error. -/
theorem c1_zero_tolerance_loop_never_exits :
(∀ sumN sumM n m : ℚ, rejectDraw sumN sumM 0 n m = true) ∧
(∀ (sumN sumM : ℚ) (draws : ℕ → ℚ × ℚ) (t : ℕ),
  acceptedWithinAttempts sumN sumM 0 draws t = false) := by
have h : ∀ sumN sumM n m : ℚ, rejectDraw sumN sumM 0 n m = true := by
  intro sumN sumM n m
  simp only [rejectDraw, sub_zero, add_zero, Bool.and_eq_true, Bool.or_eq_true,
    decide_eq_true_eq]
  exact ⟨le_total n sumN, le_total m sumM⟩
refine ⟨h, ?_⟩
intro sumN sumM draws t
simp only [acceptedWithinAttempts, List.any_eq_false, acceptDraw]
intro i _
simp [h]

/-- C2: the loop exit condition accepts a one-sided draw.  With
`sum(R) = sum(O) = 100` and tolerance 10, a draw whose resampled sums are
`100` (inside the tolerance band) and `500` (far outside it) is accepted by
the code, while the spec's criterion (both sums within ± tolerance) rejects
it. -/
theorem c2_one_sided_draw_accepted :
acceptDraw 100 100 10 100 500 = true ∧ ¬ specAcceptBoth 100 100 10 100 500 := by
constructor
· norm_num [acceptDraw, rejectDraw]
· intro h
  rcases h with ⟨_, h2⟩
  norm_num at h2

/-- C3: the acceleration constant of `bootstrapping_BCa` does NOT equal the
claim's formula.  The code cubes (and squares) the SUM of the deviations
`mean - pseudo` — which is identically zero — and multiplies rather than
divides by the `^(3/2)` factor, so `accelCode` is `0` for every pseudo-value
list; the claim's formula `Σ(mean-pseudo)³ / (6·(Σ(mean-pseudo)²)^1.5)`
evaluates at the pseudo-values `[0, 0, 3]` to `-6 / (6·√(6³)) ≠ 0` (here
`r = √(6³)` is characterised by `0 < r` and `r² = 6³`). -/
theorem c3_acceleration_formula :
(∀ jack : List ℚ, accelCode jack = 0) ∧
specAccelNum jackExample = -6 ∧
specAccelBase jackExample = 6 ∧
(∃ r : ℝ, 0 < r ∧ r ^ 2 = ((specAccelBase jackExample : ℚ) : ℝ) ^ 3 ∧
  ((specAccelNum jackExample : ℚ) : ℝ) / (6 * r) ≠ ((accelCode jackExample : ℚ) : ℝ)) := by
have hzero : ∀ jack : List ℚ, accelCode jack = 0 := by
  intro jack
  rw [accelCode, devSum_eq_zero]
  norm_num
have hnum : specAccelNum jackExample = -6 := by
  norm_num [specAccelNum, jackMean, jackExample]
have hbase : specAccelBase jackExample = 6 := by
  norm_num [specAccelBase, jackMean, jackExample]
refine ⟨hzero, hnum, hbase, Real.sqrt 216, ?_, ?_, ?_⟩
· exact Real.sqrt_pos.mpr (by norm_num)
· rw [Real.sq_sqrt (by norm_num : (0:ℝ) ≤ 216), hbase]
  norm_num
· rw [hnum, hzero]
  push_cast
  apply div_ne_zero
  · norm_num
  · have := Real.sqrt_pos.mpr (show (0:ℝ) < 216 by norm_num)
    positivity

/-- C4 counterexample: with the sorted replicate list `[1, 1, 2]` the code's
jackknife pseudo-value for position 0 is `1` (it sums the replicates whose
VALUE differs from replicate 0, dropping both copies of `1`), while the
claim's leave-one-out pseudo-value (drop only the single replicate at
position 0) is `3/2`. -/
theorem c4_jackknife_counterexample :
(jackTheta [1, 1, 2]).get? 0 = some 1 ∧
specJackPseudo [1, 1, 2] 0 = 3 / 2 ∧
(jackTheta [1, 1, 2]).get? 0 ≠ some (specJackPseudo [1, 1, 2] 0) := by
refine ⟨?_, ?_, ?_⟩
· norm_num [jackTheta]
· norm_num [specJackPseudo]
· norm_num [jackTheta, specJackPseudo]

/-- C4 (amended): the code's jackknife pseudo-value for replicate `i` is the
sum of the replicates whose VALUE differs from replicate `i`'s value, divided
by `B - 1`; when the replicate values are pairwise distinct this coincides
with the claim's leave-one-out pseudo-value (the sum of all replicates except
the one at position `i`, divided by `B - 1`), and one pseudo-value per
replicate is produced (so their average is over all `B` of them). -/
theorem c4_jackknife_amended (rep : List ℚ) (i : ℕ) (h : i < rep.length) :
(jackTheta rep).get? i =
  some ((rep.filter (fun l => decide (l ≠ rep.getD i 0))).sum / ((rep.length : ℚ) - 1)) ∧
(rep.Nodup → (jackTheta rep).get? i = some (specJackPseudo rep i)) ∧
(jackTheta rep).length = rep.length := by
have hv : rep.get? i = some (rep.get ⟨i, h⟩) := List.get?_eq_get h
have hgd : rep.getD i 0 = rep.get ⟨i, h⟩ := by
  rw [List.getD_eq_get?, hv]
  rfl
have hmap : (jackTheta rep).get? i =
    some ((rep.filter (fun l => decide (l ≠ rep.get ⟨i, h⟩))).sum / ((rep.length : ℚ) - 1)) := by
  rw [jackTheta, List.get?_map, hv]
  rfl
refine ⟨?_, ?_, ?_⟩
· rw [hmap, hgd]
· intro hnd
  have hmem : rep.get ⟨i, h⟩ ∈ rep := List.get_mem rep i h
  have hcount : rep.count (rep.get ⟨i, h⟩) = 1 := List.count_eq_one_of_mem hnd hmem
  rw [hmap, specJackPseudo, count_filter_ne_sum _ _ hcount, hgd]
· rw [jackTheta, List.length_map]

/-- C4 witness: the amended statement at the replicate list `[1, 2, 4]`,
position 1. -/
theorem c4_jackknife_witness :
1 < ([1, 2, 4] : List ℚ).length ∧
((jackTheta [1, 2, 4]).get? 1 =
  some ((([1, 2, 4] : List ℚ).filter
    (fun l => decide (l ≠ ([1, 2, 4] : List ℚ).getD 1 0))).sum /
    ((([1, 2, 4] : List ℚ).length : ℚ) - 1)) ∧
(([1, 2, 4] : List ℚ).Nodup → (jackTheta [1, 2, 4]).get? 1 = some (specJackPseudo [1, 2, 4] 1)) ∧
(jackTheta [1, 2, 4]).length = ([1, 2, 4] : List ℚ).length) :=
⟨by norm_num, c4_jackknife_amended [1, 2, 4] 1 (by norm_num)⟩

/-- C5 counterexample: the percentile indices are NOT clamped into `[1, B]`.
With `B = 10` and confidence level `19/20` the code's lower index is
`int(10·(1/20)) = 0`, outside `[1, 10]`; the code then evaluates
`corr_values[0 - 1]`, which by Python's negative indexing selects the LAST
sorted replicate (`9` in `sortedExample`), while the claim's clamped index 1
would select the first (`0`). -/
theorem c5_percentile_counterexample :
lowerIdxPerc 10 (19/20) = 0 ∧
¬ (1 ≤ lowerIdxPerc 10 (19/20)) ∧
percCILow 10 (19/20) sortedExample = some 9 ∧
sortedExample.get? (specClampIdx 10 (lowerIdxPerc 10 (19/20)) - 1).toNat = some 0 ∧
percCILow 10 (19/20) sortedExample ≠
  sortedExample.get? (specClampIdx 10 (lowerIdxPerc 10 (19/20)) - 1).toNat := by
have hlow : lowerIdxPerc 10 (19/20) = 0 := by
  rw [lowerIdxPerc, pyInt, if_pos (by norm_num)]
  have : ((10 : ℕ) : ℚ) * (1 - 19/20) = 1/2 := by norm_num
  rw [this]
  rw [show ((0:ℤ)) = ⌊(0:ℚ)⌋ by rw [Int.floor_zero]]
  apply Int.floor_eq_iff.mpr
  constructor <;> norm_num
refine ⟨hlow, by rw [hlow]; omega, ?_, ?_, ?_⟩
· rw [percCILow, hlow, pyGet]
  rw [if_neg (by omega)]
  rw [if_pos (by simp [sortedExample])]
  simp [sortedExample]
· rw [hlow]
  simp [specClampIdx, sortedExample]
· rw [percCILow, hlow, pyGet]
  rw [if_neg (by omega)]
  rw [if_pos (by simp [sortedExample])]
  simp [specClampIdx, sortedExample]

/-- C5 (amended): in plain percentile mode the code's 1-based lower index is
`⌊B·(1-CL)⌋` and its upper index is `⌈B·CL⌉`, with NO clamping into `[1, B]`:
when the indices lie in `[1, B]` the interval is
`(sorted[lower-1], sorted[upper-1])`, but when the lower index is `0` the
code returns the LAST sorted replicate (Python index `-1`) as the lower
bound; for `B = 100`, `CL = 19/20` (α = 0.05) the indices are 5 and 95. -/
theorem c5_percentile_amended (B : ℕ) (CL : ℚ) (sorted : List ℚ)
(h0 : 0 ≤ CL) (h1 : CL ≤ 1) :
lowerIdxPerc B CL = ⌊(B : ℚ) * (1 - CL)⌋ ∧
upperIdxPerc B CL = ⌈CL * (B : ℚ)⌉ ∧
(1 ≤ lowerIdxPerc B CL →
  percCILow B CL sorted = sorted.get? (lowerIdxPerc B CL - 1).toNat) ∧
(upperIdxPerc B CL ≥ 1 →
  percCIUp B CL sorted = sorted.get? (upperIdxPerc B CL - 1).toNat) ∧
(lowerIdxPerc B CL = 0 → sorted ≠ [] → percCILow B CL sorted = sorted.getLast?) ∧
lowerIdxPerc 100 (19/20) = 5 ∧
upperIdxPerc 100 (19/20) = 95 := by
have hqnn : 0 ≤ (B : ℚ) * (1 - CL) :=
  mul_nonneg (Nat.cast_nonneg B) (sub_nonneg.mpr h1)
have hunn : 0 ≤ CL * (B : ℚ) := mul_nonneg h0 (Nat.cast_nonneg B)
have hlowdef : lowerIdxPerc B CL = ⌊(B : ℚ) * (1 - CL)⌋ := by
  rw [lowerIdxPerc, pyInt, if_pos hqnn]
have hupdef : upperIdxPerc B CL = ⌈CL * (B : ℚ)⌉ := by
  by_cases hden : (CL * (B : ℚ)).den = 1
  · rw [upperIdxPerc, if_pos hden, pyInt, if_pos hunn]
    have hz : ((CL * (B : ℚ)).num : ℚ) = CL * (B : ℚ) := (Rat.den_eq_one_iff _).mp hden
    rw [← hz, Int.floor_intCast, Int.ceil_intCast]
  · rw [upperIdxPerc, if_neg hden, pyInt,
      if_pos (le_trans hunn (by linarith)), Int.floor_add_one,
      ceil_eq_floor_add_one_of_den_ne_one _ hden]
refine ⟨hlowdef, hupdef, ?_, ?_, ?_, ?_, ?_⟩
· intro hge
  rw [percCILow, pyGet, if_pos (by omega)]
· intro hge
  rw [percCIUp, pyGet, if_pos (by omega)]
· intro hz hne
  rw [percCILow, pyGet, hz]
  rw [if_neg (by omega)]
  have hlen : 1 ≤ sorted.length := List.length_pos.mpr hne
  rw [if_pos (by push_cast; omega)]
  rw [List.getLast?_eq_getElem?, List.get?_eq_getElem?]
  congr 1
  omega
· rw [lowerIdxPerc, pyInt, if_pos (by norm_num)]
  have : ((100 : ℕ) : ℚ) * (1 - 19/20) = 5 := by norm_num
  rw [this]
  rw [show ((5:ℚ)) = (((5:ℤ)) : ℚ) by norm_num, Int.floor_intCast]
· have h95 : (19/20 : ℚ) * ((100 : ℕ) : ℚ) = ((95 : ℤ) : ℚ) := by norm_num
  rw [upperIdxPerc, h95]
  rw [if_pos (Rat.den_intCast 95), pyInt, if_pos (by norm_num)]
  exact Int.floor_intCast 95

/-- C5 witness: the amended statement at `B = 10`, `CL = 19/20` and the
replicate list `sortedExample`. -/
theorem c5_percentile_witness :
0 ≤ (19/20 : ℚ) ∧ (19/20 : ℚ) ≤ 1 ∧
(lowerIdxPerc 10 (19/20) = ⌊((10 : ℕ) : ℚ) * (1 - 19/20)⌋ ∧
upperIdxPerc 10 (19/20) = ⌈(19/20 : ℚ) * ((10 : ℕ) : ℚ)⌉ ∧
(1 ≤ lowerIdxPerc 10 (19/20) →
  percCILow 10 (19/20) sortedExample =
    sortedExample.get? (lowerIdxPerc 10 (19/20) - 1).toNat) ∧
(upperIdxPerc 10 (19/20) ≥ 1 →
  percCIUp 10 (19/20) sortedExample =
    sortedExample.get? (upperIdxPerc 10 (19/20) - 1).toNat) ∧
(lowerIdxPerc 10 (19/20) = 0 → sortedExample ≠ [] →
  percCILow 10 (19/20) sortedExample = sortedExample.getLast?) ∧
lowerIdxPerc 100 (19/20) = 5 ∧
upperIdxPerc 100 (19/20) = 95) :=
⟨by norm_num, by norm_num,
  c5_percentile_amended 10 (19/20) sortedExample (by norm_num) (by norm_num)⟩

theorem mirrorFill_eq (L : ℕ → ℕ → Option ℚ) (hL : ∀ a b : ℕ, a < b → L a b = some 0)
(i j : ℕ) : mirrorFill L i j = L (max i j) (min i j) := by
rcases lt_trichotomy i j with hij | hij | hij
· rw [mirrorFill, if_neg (by omega), hL i j hij,
    max_eq_right (le_of_lt hij), min_eq_left (le_of_lt hij)]
  rcases hLji : L j i with _ | a
  · rfl
  · show some (0 + a - 0) = some a
    norm_num
· subst hij
  rw [mirrorFill, if_pos rfl, max_self, min_self]
  rcases hLii : L i i with _ | a
  · rfl
  · show some (a + a - a) = some a
    norm_num
· rw [mirrorFill, if_neg (by omega), hL j i hij,
    max_eq_left (le_of_lt hij), min_eq_right (le_of_lt hij)]
  rcases hLij : L i j with _ | a
  · rfl
  · show some (a + 0 - 0) = some a
    norm_num

theorem corrMatrixFinal_eq (sel : CorrSel) (sp tau pe : ℕ → ℕ → Option ℚ)
(m : Fin 3) (i j : ℕ) :
corrMatrixFinal sel sp tau pe m i j =
  writtenLayer sel sp tau pe m (max i j) (min i j) := by
rw [corrMatrixFinal]
by_cases hm : (m : ℕ) < numMirrored sel
· rw [if_pos hm, mirrorFill_eq]
  · rw [preLayer, if_pos (min_le_max)]
  · intro a b hab
    rw [preLayer, if_neg (by omega)]
· rw [if_neg hm]
  cases sel with
  | ALL =>
    exfalso
    apply hm
    rw [show numMirrored CorrSel.ALL = 3 from rfl]
    exact m.isLt
  | S =>
    have hm0 : m ≠ 0 := by
      intro h0
      apply hm
      rw [h0]
      decide
    rw [preLayer, writtenLayer.eq_def]
    simp only [hm0, if_false]
    split <;> rfl
  | T =>
    have hm0 : m ≠ 0 := by
      intro h0
      apply hm
      rw [h0]
      decide
    rw [preLayer, writtenLayer.eq_def]
    simp only [hm0, if_false]
    split <;> rfl
  | P =>
    have hm0 : m ≠ 0 := by
      intro h0
      apply hm
      rw [h0]
      decide
    rw [preLayer, writtenLayer.eq_def]
    simp only [hm0, if_false]
    split <;> rfl

/-- C6: `correlations` evaluates the statistic directly only on the lower
triangle (`x ≥ y`; the inner loop breaks at `x < y`) and fills the strict
upper triangle by mirroring: every entry of every layer equals the directly
computed value at `(max i j, min i j)`, and each layer of the resulting
matrix is symmetric, for every selector. -/
theorem c6_corr_matrix_symmetric (sel : CorrSel) (sp tau pe : ℕ → ℕ → Option ℚ)
(m : Fin 3) (i j : ℕ) :
corrMatrixFinal sel sp tau pe m i j =
  writtenLayer sel sp tau pe m (max i j) (min i j) ∧
corrMatrixFinal sel sp tau pe m i j = corrMatrixFinal sel sp tau pe m j i := by
refine ⟨corrMatrixFinal_eq sel sp tau pe m i j, ?_⟩
rw [corrMatrixFinal_eq sel sp tau pe m i j, corrMatrixFinal_eq sel sp tau pe m j i,
  max_comm, min_comm]

/-- C8: when at least one vector of a pair is constant (zero variance) the
matrix entry for that pair — in every layer — is the explicit not-a-number
marker, with no fatal error (the construction is total), and any pair of
non-degenerate vectors still receives its defined statistic value. -/
theorem c8_degenerate_pair_nan (fS fT fP : List ℚ → List ℚ → ℚ)
(kf : ℕ → List ℚ) (m : Fin 3) (i j i2 j2 : ℕ)
(hdeg : constantVec (kf i) = true ∨ constantVec (kf j) = true)
(hc1 : constantVec (kf i2) = false) (hc2 : constantVec (kf j2) = false) :
corrMatrixOnVecs CorrSel.ALL fS fT fP kf m i j = none ∧
corrMatrixOnVecs CorrSel.ALL fS fT fP kf m i2 j2 =
  some (statQ fS fT fP m (kf (max i2 j2)) (kf (min i2 j2))) := by
have hdeg' : constantVec (kf (max i j)) = true ∨ constantVec (kf (min i j)) = true := by
  rcases le_total i j with h | h
  · rw [max_eq_right h, min_eq_left h]
    exact hdeg.symm
  · rw [max_eq_left h, min_eq_right h]
    exact hdeg
have hkey : ∀ f : List ℚ → List ℚ → ℚ,
    scipyStat f (kf (max i j)) (kf (min i j)) = none := by
  intro f
  rw [scipyStat, if_pos]
  rcases hdeg' with h | h
  · rw [h, Bool.true_or]
  · rw [h, Bool.or_true]
have hkey2 : ∀ f : List ℚ → List ℚ → ℚ,
    scipyStat f (kf (max i2 j2)) (kf (min i2 j2)) = some (f (kf (max i2 j2)) (kf (min i2 j2))) := by
  intro f
  rw [scipyStat, if_neg]
  rcases le_total i2 j2 with h | h
  · rw [max_eq_right h, min_eq_left h, hc2, hc1]
    simp
  · rw [max_eq_left h, min_eq_right h, hc1, hc2]
    simp
constructor
· rw [corrMatrixOnVecs, corrMatrixFinal_eq, writtenLayer, statAt]
  by_cases hm0 : m = 0
  · rw [if_pos hm0]
    exact hkey fS
  · rw [if_neg hm0]
    by_cases hm1 : m = 1
    · rw [if_pos hm1]
      exact hkey fT
    · rw [if_neg hm1]
      exact hkey fP
· rw [corrMatrixOnVecs, corrMatrixFinal_eq, writtenLayer, statAt, statQ]
  by_cases hm0 : m = 0
  · rw [if_pos hm0, if_pos hm0]
    exact hkey2 fS
  · rw [if_neg hm0, if_neg hm0]
    by_cases hm1 : m = 1
    · rw [if_pos hm1, if_pos hm1]
      exact hkey2 fT
    · rw [if_neg hm1, if_neg hm1]
      exact hkey2 fP

/-- C8 witness: with `kfExample` (sequence 0 constant, sequences 1 and 2 not)
the `(0,1)` entry of every layer is the not-a-number marker and the `(1,2)`
entry carries the defined statistic value. -/
theorem c8_degenerate_pair_nan_witness :
(constantVec (kfExample 0) = true ∨ constantVec (kfExample 1) = true) ∧
constantVec (kfExample 1) = false ∧ constantVec (kfExample 2) = false ∧
(corrMatrixOnVecs CorrSel.ALL (fun _ _ => 0) (fun _ _ => 0) (fun _ _ => 0)
    kfExample 0 0 1 = none ∧
 corrMatrixOnVecs CorrSel.ALL (fun _ _ => 0) (fun _ _ => 0) (fun _ _ => 0)
    kfExample 0 1 2 =
  some (statQ (fun _ _ => 0) (fun _ _ => 0) (fun _ _ => 0) 0
    (kfExample (max 1 2)) (kfExample (min 1 2)))) :=
⟨Or.inl (by norm_num [constantVec, kfExample]),
 by norm_num [constantVec, kfExample],
 by norm_num [constantVec, kfExample],
 c8_degenerate_pair_nan (fun _ _ => 0) (fun _ _ => 0) (fun _ _ => 0) kfExample 0 0 1 1 2
  (Or.inl (by norm_num [constantVec, kfExample]))
  (by norm_num [constantVec, kfExample])
  (by norm_num [constantVec, kfExample])⟩

theorem length_allW (k : ℕ) : (allW k).length = 4 ^ k := by
induction k with
| zero => rfl
| succ k ih =>
  rw [allW]
  simp [alphabetL, ih, pow_succ]
  ring

theorem nodup_allW (k : ℕ) : (allW k).Nodup := by
induction k with
| zero => simp [allW]
| succ k ih =>
  rw [allW]
  apply List.nodup_flatMap.mpr
  constructor
  · intro a _
    exact ih.map (fun w1 w2 h => by injection h)
  · have hpw : alphabetL.Pairwise (fun a b => a ≠ b) := by decide
    refine hpw.imp ?_
    intro a b hab
    intro w hwa hwb
    rcases List.mem_map.mp hwa with ⟨w1, _, hw1⟩
    rcases List.mem_map.mp hwb with ⟨w2, _, hw2⟩
    rw [← hw1] at hw2
    injection hw2 with h1 _
    exact hab h1.symm

theorem mem_allW (k : ℕ) (w : List Char) :
w ∈ allW k ↔ w.length = k ∧ validW w = true := by
induction k generalizing w with
| zero =>
  rw [allW]
  simp only [List.mem_singleton]
  constructor
  · rintro rfl
    exact ⟨rfl, rfl⟩
  · rintro ⟨hl, _⟩
    exact List.length_eq_zero.mp hl
| succ k ih =>
  rw [allW]
  simp only [List.mem_flatMap, List.mem_map]
  constructor
  · rintro ⟨a, ha, w1, hw1, rfl⟩
    rcases (ih w1).mp hw1 with ⟨hl, hv⟩
    refine ⟨by simp [hl], ?_⟩
    rw [validW, List.all_cons]
    rw [validW] at hv
    rw [hv]
    simp [ha]
  · rintro ⟨hl, hv⟩
    cases w with
    | nil => simp at hl
    | cons a w1 =>
      rw [validW, List.all_cons, Bool.and_eq_true, decide_eq_true_eq] at hv
      refine ⟨a, hv.1, w1, (ih w1).mpr ⟨by simpa using hl, hv.2⟩, rfl⟩

theorem sum_map_add_nat {α : Type} (l : List α) (f g : α → ℕ) :
(l.map (fun x => f x + g x)).sum = (l.map f).sum + (l.map g).sum := by
induction l with
| nil => rfl
| cons a t ih =>
  simp only [List.map_cons, List.sum_cons, ih]
  omega

theorem sum_map_ite_eq (l : List (List Char)) (x : List Char) :
(l.map (fun w => if x = w then (1 : ℕ) else 0)).sum = l.count x := by
induction l with
| nil => rfl
| cons a t ih =>
  simp only [List.map_cons, List.sum_cons, ih, List.count_cons]
  by_cases hax : x = a
  · subst hax
    simp
    omega
  · rw [if_neg hax, if_neg (by simpa using fun hh => hax hh.symm)]
    omega

theorem count_eq_one_of_nodup_mem {α : Type} [BEq α] [LawfulBEq α]
{l : List α} {a : α} (hnd : l.Nodup) (ha : a ∈ l) : l.count a = 1 := by
induction l with
| nil => simp at ha
| cons b t ih =>
  rcases List.nodup_cons.mp hnd with ⟨hbt, hndt⟩
  rw [List.count_cons]
  rcases List.mem_cons.mp ha with hab | hat
  · subst hab
    have hz : t.count a = 0 := List.count_eq_zero.mpr hbt
    rw [hz, if_pos (by simp)]
  · have hne : ¬ b = a := by
      intro hh
      exact hbt (hh ▸ hat)
    rw [ih hndt hat, if_neg (by simp [hne])]

theorem sum_counts_eq_length (l : List (List Char)) (hnd : l.Nodup) :
∀ kept : List (List Char), (∀ w ∈ kept, w ∈ l) →
  (l.map (fun w => kept.count w)).sum = kept.length := by
intro kept
induction kept with
| nil =>
  intro _
  simp
| cons x t ih =>
  intro hsub
  have hxl : x ∈ l := hsub x (List.mem_cons_self x t)
  have hts : ∀ w ∈ t, w ∈ l := fun w hw => hsub w (List.mem_cons_of_mem _ hw)
  have hcx : l.count x = 1 := count_eq_one_of_nodup_mem hnd hxl
  simp only [List.count_cons, beq_iff_eq]
  rw [sum_map_add_nat, sum_map_ite_eq, ih hts, hcx, List.length_cons]

theorem keptKmers_mem_allW (s : List Char) (k : ℕ) (w : List Char)
(hw : w ∈ keptKmers s k) : w ∈ allW k := by
rw [keptKmers] at hw
have hvalid : validW w = true := List.of_mem_filter hw
have hmem : w ∈ (List.range (numWindows s k)).map (windowAt s k) :=
  List.mem_of_mem_filter hw
rcases List.mem_map.mp hmem with ⟨pos, hpos, rfl⟩
have hpos' : pos < numWindows s k := List.mem_range.mp hpos
have hlen : (windowAt s k pos).length = k := by
  rw [windowAt, List.length_take, List.length_drop]
  rw [numWindows] at hpos'
  by_cases hk : k ≤ s.length
  · rw [if_pos hk] at hpos'
    omega
  · rw [if_neg hk] at hpos'
    omega
exact (mem_allW k _).mpr ⟨hlen, hvalid⟩

theorem freqVec_sum_eq (s : List Char) (k : ℕ) :
(freqVec s k).sum = (keptKmers s k).length := by
rw [freqVec]
exact sum_counts_eq_length (allW k) (nodup_allW k) (keptKmers s k)
  (fun w hw => keptKmers_mem_allW s k w hw)

/-- C7: for every sequence and word length `k ≤ len`, the frequency vector of
`words_overlay` has length `4^k`, its sum is at most `len - k + 1`, with
equality iff every length-`k` sliding window has all characters in the
alphabet; and for "ATATAT" with `k = 2` the vector is 16 long with entry 3
at AT (index 1), entry 2 at TA (index 4), zero elsewhere, and sum 5. -/
theorem c7_freq_vector (s : List Char) (k : ℕ) (h : k ≤ s.length) :
(freqVec s k).length = 4 ^ k ∧
(freqVec s k).sum ≤ s.length - k + 1 ∧
((freqVec s k).sum = s.length - k + 1 ↔
  ∀ pos : ℕ, pos < s.length - k + 1 → validW (windowAt s k pos) = true) ∧
freqVec atatat 2 = [0, 3, 0, 0, 2, 0, 0, 0, 0, 0, 0, 0, 0, 0, 0, 0] ∧
(freqVec atatat 2).sum = 5 := by
have hnw : numWindows s k = s.length - k + 1 := by rw [numWindows, if_pos h]
have hsum := freqVec_sum_eq s k
have hwinlen : ((List.range (numWindows s k)).map (windowAt s k)).length =
    s.length - k + 1 := by
  rw [List.length_map, List.length_range, hnw]
refine ⟨?_, ?_, ?_, ?_, ?_⟩
· rw [freqVec, List.length_map, length_allW]
· rw [hsum, keptKmers, ← hwinlen]
  exact List.length_filter_le _ _
· rw [hsum, keptKmers, ← hwinlen, List.filter_length_eq_length]
  constructor
  · intro hall pos hpos
    exact hall _ (List.mem_map.mpr ⟨pos, List.mem_range.mpr (by omega), rfl⟩)
  · rintro hall w hw
    rcases List.mem_map.mp hw with ⟨pos, hpos, rfl⟩
    have := List.mem_range.mp hpos
    exact hall pos (by omega)
· decide
· decide

/-- C9: the table has the fixed 9-column layout with one row per pair, but a
single-method selector's results do NOT land in that method's own columns:
with selector `P` (Pearson) and two sequences, the Pearson triple
`(1/10, 9/10, 1/2)` is written to columns 0-2 — headed `SpearCIlow,
SpearCIup, Spear` — while the Pearson-headed columns 6-8 (`PearCIL,
PearCIup, Pear`) hold the not-a-number placeholder. -/
theorem c9_single_method_placement :
confTable CorrSel.P (fun _ => ((0 : ℚ), (0 : ℚ), (0 : ℚ)))
    (fun _ => ((0 : ℚ), (0 : ℚ), (0 : ℚ)))
    (fun _ => ((1/10 : ℚ), (9/10 : ℚ), (1/2 : ℚ))) 2 =
  [[some (1/10), some (9/10), some (1/2), none, none, none, none, none, none]] ∧
confHeader.get? 0 = some "SpearCIlow" ∧
confHeader.get? 6 = some "PearCIL" ∧
(confTable CorrSel.P (fun _ => ((0 : ℚ), (0 : ℚ), (0 : ℚ)))
    (fun _ => ((0 : ℚ), (0 : ℚ), (0 : ℚ)))
    (fun _ => ((1/10 : ℚ), (9/10 : ℚ), (1/2 : ℚ))) 2).length = 2 - 1 := by
refine ⟨rfl, rfl, rfl, rfl⟩

/-- C10: the bootstrap pair loops take sequence 0 as the designated
reference: the point-estimate list has exactly `N - 1` entries, entry `i`
belonging to the pair `(0, i+1)` and equal to the `(0, i+1)` entry of the
previously computed correlation matrix. -/
theorem c10_reference_pairs (sel : CorrSel) (sp tau pe : ℕ → ℕ → Option ℚ)
(m : Fin 3) (N i : ℕ) (h : i < N - 1) :
(corrFuncList (corrMatrixFinal sel sp tau pe m) N).length = N - 1 ∧
(corrFuncList (corrMatrixFinal sel sp tau pe m) N).get? i =
  some (corrMatrixFinal sel sp tau pe m 0 (i + 1)) := by
have hr1 : List.range 1 = [0] := rfl
have hcf : corrFuncList (corrMatrixFinal sel sp tau pe m) N =
    (pairsIdx N).map (fun y => corrMatrixFinal sel sp tau pe m 0 y) := by
  rw [corrFuncList, hr1]
  simp
constructor
· rw [hcf, List.length_map, pairsIdx, List.length_range']
· rw [hcf, List.get?_eq_getElem?, List.getElem?_map, pairsIdx,
    List.getElem?_range' 1 1 h]
  have harg : 1 + 1 * i = i + 1 := by omega
  rw [harg]
  rfl

/-- C10 witness: the statement at `N = 3` sequences, pair index 1, layer 0. -/
theorem c10_reference_pairs_witness :
1 < 3 - 1 ∧
((corrFuncList (corrMatrixFinal CorrSel.ALL (fun _ _ => some 0) (fun _ _ => some 0)
    (fun _ _ => some 0) 0) 3).length = 3 - 1 ∧
(corrFuncList (corrMatrixFinal CorrSel.ALL (fun _ _ => some 0) (fun _ _ => some 0)
    (fun _ _ => some 0) 0) 3).get? 1 =
  some (corrMatrixFinal CorrSel.ALL (fun _ _ => some 0) (fun _ _ => some 0)
    (fun _ _ => some 0) 0 0 2)) :=
⟨by decide, c10_reference_pairs CorrSel.ALL (fun _ _ => some 0) (fun _ _ => some 0)
  (fun _ _ => some 0) 0 3 1 (by decide)⟩

/-- C7 witness: the statement at the sequence "ATATAT" with `k = 2`. -/
theorem c7_freq_vector_witness :
2 ≤ atatat.length ∧
((freqVec atatat 2).length = 4 ^ 2 ∧
(freqVec atatat 2).sum ≤ atatat.length - 2 + 1 ∧
((freqVec atatat 2).sum = atatat.length - 2 + 1 ↔
  ∀ pos : ℕ, pos < atatat.length - 2 + 1 → validW (windowAt atatat 2 pos) = true) ∧
freqVec atatat 2 = [0, 3, 0, 0, 2, 0, 0, 0, 0, 0, 0, 0, 0, 0, 0, 0] ∧
(freqVec atatat 2).sum = 5) :=
⟨by decide, c7_freq_vector atatat 2 (by decide)⟩

end Kmer
